import Mathlib

/-!
# Verification of `OverlappingIntervalsIndex`
(`packages/dds/sequence/src/intervalIndex/overlappingIntervalsIndex.ts`)

The file embeds the overlap-query index over intervals anchored into a
sequence.  `findOverlappingIntervals`, `gatherIterationResults`, `add`,
`remove` and the inverted-range test are translated from the source file
`overlappingIntervalsIndex.ts`.  The collaborators that the source imports
from elsewhere in the repository (`normalizeSequencePlace`, the
`SequenceInterval` comparison operations, `IntervalTree` with `put`,
`removeExisting`, `map`, `mapBackward`, `match`,
`walkExactMatchesForward/Backward`) are not part of the shown sources and
are modelled from the specification, as marked on each definition.
-/

/-- `Side` tag of a sequence place (`Side.Before` / `Side.After` in the
source). -/
inductive Side where
  | before
  | after
  deriving DecidableEq, Repr

/-- A normalized sequence place: a resolved integer offset plus a `Side`.
Offset `-1` is reserved for the two sequence sentinels. -/
structure InteriorPlace where
  pos : Int
  side : Side
  deriving DecidableEq, Repr

/-- `SequencePlace`: raw caller-supplied position syntax — a bare number,
one of the sentinels `"start"` / `"end"`, or an interior `(pos, side)`
pair. -/
inductive SequencePlace where
  | startSentinel
  | endSentinel
  | offset (n : Int)
  | interior (p : InteriorPlace)
  deriving DecidableEq, Repr

/-- Modelled from the spec: `normalizeSequencePlace`
(`intervalCollection.ts`, not among the shown sources).  "Normalization
converts any caller-supplied position into this canonical `(offset, Side)`
pair"; it is total and pure.  The sentinel encoding follows the source
comments of `overlappingIntervalsIndex.ts` lines 153/156 ( `(-1, Before)`
is the end of the sequence, `(-1, After)` its start) and §4.4 of the spec;
a bare number resolves to the place just before that offset. -/
def normalizeSequencePlace : SequencePlace → InteriorPlace
  | .startSentinel => ⟨-1, .after⟩
  | .endSentinel => ⟨-1, .before⟩
  | .offset n => ⟨n, .before⟩
  | .interior p => p

/-- Modelled from the spec: the total order on normalized places used by
the interval comparisons ("sequence-start sorts before every resolved
offset; sequence-end sorts after every resolved offset, modulated by
`Side`").  A resolved place `(p, side)` is keyed `2p` (before) / `2p + 1`
(after); the start sentinel `(-1, After)` gets key `-1`, below every
resolved offset, and the end sentinel `(-1, Before)` gets `⊤`, above
everything. -/
def posKey (p : InteriorPlace) : WithTop Int :=
  if p.pos = -1 ∧ p.side = Side.before then ⊤
  else ((2 * p.pos + (if p.side = Side.after then 1 else 0) : Int) : WithTop Int)

/-- A place is legitimate caller input when its offset is `≥ -1`
(offset `-1` is reserved for the sentinels, spec §4.1). -/
def validPlace (p : InteriorPlace) : Bool :=
  decide (-1 ≤ p.pos)

/-- Interval kind (`IntervalType` in the source): `Persistent` stored
intervals versus `Transient` query probes. -/
inductive IntervalType where
  | persistent
  | transient
  deriving DecidableEq, Repr

/-- Modelled from the spec: a `SequenceInterval` — identity-bearing value
with two anchored positions and a kind (`intervals/`, not among the shown
sources).  Positions are kept in normalized form. -/
structure SeqInterval where
  id : String
  start : InteriorPlace
  end_ : InteriorPlace
  kind : IntervalType
  deriving DecidableEq, Repr

/-- Position key of an interval's start. -/
def startKey (i : SeqInterval) : WithTop Int := posKey i.start

/-- Position key of an interval's end. -/
def endKey (i : SeqInterval) : WithTop Int := posKey i.end_

/-- Three-way comparison of two position keys as an integer sign. -/
def cmpKeys (x y : WithTop Int) : Int :=
  if x < y then -1 else if y < x then 1 else 0

/-- Modelled from the spec: `SequenceInterval.compareStart` — three-way
comparison of the two start positions. -/
def SeqInterval.compareStart (a b : SeqInterval) : Int :=
  cmpKeys (startKey a) (startKey b)

/-- Modelled from the spec: `SequenceInterval.compareEnd` — three-way
comparison of the two end positions. -/
def SeqInterval.compareEnd (a b : SeqInterval) : Int :=
  cmpKeys (endKey a) (endKey b)

/-- Modelled from the spec: `SequenceInterval.compare` — the combined
start-major, end-minor comparison that totally orders intervals for tree
placement; two intervals with equal `(start, end)` compare equal. -/
def SeqInterval.compare (a b : SeqInterval) : Int :=
  let c := a.compareStart b
  if c = 0 then a.compareEnd b else c

/-- Modelled from the spec: `helpers.create("transient", start, end, …,
IntervalType.Transient)` — builds the throwaway probe interval from two
raw places, normalizing them; it does not touch the tree. -/
def mkTransient (s e : SequencePlace) : SeqInterval :=
  ⟨"transient", normalizeSequencePlace s, normalizeSequencePlace e, .transient⟩

/-- The standard interval-overlap predicate of the spec:
`I.start ≤ probe.end` and `I.end ≥ probe.start` under the position
order. -/
def overlaps (probe i : SeqInterval) : Bool :=
  decide (startKey i ≤ endKey probe) && decide (startKey probe ≤ endKey i)

/-- Modelled from the spec: the interval tree's node structure
(`intervalTree.ts`, not among the shown sources) — an ordered binary
search tree keyed by `SeqInterval.compare`.  Balancing rotations do not
change the ordered contents, so the model keeps the plain node structure. -/
inductive ITree where
  | nil
  | node (l : ITree) (k : SeqInterval) (r : ITree)
  deriving DecidableEq, Repr

namespace ITree

/-- `intervals.isEmpty()` of the source tree. -/
def isEmpty : ITree → Bool
  | .nil => true
  | .node _ _ _ => false

/-- In-order contents (`map` visits intervals in this order). -/
def toList : ITree → List SeqInterval
  | .nil => []
  | .node l k r => l.toList ++ [k] ++ r.toList

/-- Reverse in-order contents (`mapBackward` visits intervals in this
order). -/
def toListBackward : ITree → List SeqInterval
  | .nil => []
  | .node l k r => r.toListBackward ++ [k] ++ l.toListBackward

/-- Modelled from the spec: `IntervalTree.put` — places by
`SeqInterval.compare`, ties placed consistently to one side (here: to the
right). -/
def put (t : ITree) (x : SeqInterval) : ITree :=
  match t with
  | .nil => .node .nil x .nil
  | .node l k r =>
    if x.compare k < 0 then .node (l.put x) k r else .node l k (r.put x)

/-- Builds a tree by `put`-ing every interval of a list in order. -/
def addAll (L : List SeqInterval) : ITree :=
  L.foldl put .nil

/-- The binary-search-tree ordering invariant: at every node, everything
on the left compares strictly below the key and everything on the right
compares at or above it. -/
def ordered : ITree → Bool
  | .nil => true
  | .node l k r =>
    l.toList.all (fun x => decide (x.compare k < 0)) &&
    r.toList.all (fun x => decide (0 ≤ x.compare k)) &&
    l.ordered && r.ordered

/-- Maximum end-position key over a subtree (`⊥` for the empty tree) —
the augmentation the spec describes for subtree pruning. -/
def maxEnd : ITree → WithBot (WithTop Int)
  | .nil => ⊥
  | .node l k r => max (max l.maxEnd ((endKey k : WithTop Int) : WithBot (WithTop Int))) r.maxEnd

/-- Modelled from the spec: `IntervalTree.match` / `overlapSearch` —
returns every stored interval overlapping the probe, pruning a subtree
when its maximum end falls below the probe's start and pruning to the
right once a node's start exceeds the probe's end. -/
def matchTree (t : ITree) (probe : SeqInterval) : List SeqInterval :=
  match t with
  | .nil => []
  | .node l k r =>
    if (ITree.node l k r).maxEnd < ((startKey probe : WithTop Int) : WithBot (WithTop Int)) then []
    else
      l.matchTree probe ++
      (if overlaps probe k then [k] else []) ++
      (if endKey probe < startKey k then [] else r.matchTree probe)

/-- Modelled from the spec: `walkExactMatchesForward` — pruned in-order
walk; at each node compute `cmp = cmpFn node`, visit the node exactly when
`cmp = 0`, descend left only while `continueLeft cmp`, right only while
`continueRight cmp`. -/
def walkExactMatchesForward (t : ITree) (cmpFn : SeqInterval → Int)
    (continueLeft continueRight : Int → Bool) : List SeqInterval :=
  match t with
  | .nil => []
  | .node l k r =>
    let c := cmpFn k
    (if continueLeft c then l.walkExactMatchesForward cmpFn continueLeft continueRight else []) ++
    (if c = 0 then [k] else []) ++
    (if continueRight c then r.walkExactMatchesForward cmpFn continueLeft continueRight else [])

/-- Modelled from the spec: `walkExactMatchesBackward` — the same pruned
walk in reverse in-order. -/
def walkExactMatchesBackward (t : ITree) (cmpFn : SeqInterval → Int)
    (continueLeft continueRight : Int → Bool) : List SeqInterval :=
  match t with
  | .nil => []
  | .node l k r =>
    let c := cmpFn k
    (if continueRight c then r.walkExactMatchesBackward cmpFn continueLeft continueRight else []) ++
    (if c = 0 then [k] else []) ++
    (if continueLeft c then l.walkExactMatchesBackward cmpFn continueLeft continueRight else [])

/-- Whether the tree stores the given interval (by identity: full value
equality including `id`). -/
def containsI (t : ITree) (x : SeqInterval) : Bool :=
  t.toList.contains x

/-- Concatenates two trees, keeping in-order contents. -/
def joinT : ITree → ITree → ITree
  | .nil, r => r
  | .node ll lk lr, r => .node ll lk (lr.joinT r)

/-- Removes the (leftmost) node holding exactly the given interval. -/
def deleteOne (t : ITree) (x : SeqInterval) : ITree :=
  match t with
  | .nil => .nil
  | .node l k r =>
    if l.containsI x then .node (l.deleteOne x) k r
    else if k = x then l.joinT r
    else .node l k (r.deleteOne x)

/-- Modelled from the spec: `IntervalTree.removeExisting` — removes by
identity and fails loudly (distinct error) when the interval was never
added or was already removed, rather than silently doing nothing. -/
def removeExisting (t : ITree) (x : SeqInterval) : Except String ITree :=
  if t.containsI x then .ok (t.deleteOne x) else .error "removeExisting: interval not present"

end ITree

/-- The inverted-search-interval test of
`OverlappingIntervalsIndex.findOverlappingIntervals` (source lines
151-158), on the two normalized places. -/
def invertedSearchInterval (s e : InteriorPlace) : Bool :=
  (decide (s.pos ≠ -1) && decide (e.pos ≠ -1) && decide (e.pos < s.pos)) ||
  (decide (s.pos = -1) && decide (s.side = Side.before) &&
    !(decide (e.pos = -1) && decide (e.side = Side.before))) ||
  (decide (e.pos = -1) && decide (e.side = Side.after) &&
    !(decide (s.pos = -1) && decide (s.side = Side.after)))

/-- `OverlappingIntervalsIndex.findOverlappingIntervals` (source lines
147-175): normalize both places; return `[]` when the range is inverted or
the tree is empty; otherwise build a `Transient` probe and match it
against the tree, returning the matched nodes' keys. -/
def findOverlappingIntervals (t : ITree) (start e : SequencePlace) : List SeqInterval :=
  let ns := normalizeSequencePlace start
  let ne := normalizeSequencePlace e
  if invertedSearchInterval ns ne || t.isEmpty then []
  else t.matchTree (mkTransient start e)

/-- `OverlappingIntervalsIndex.gatherIterationResults` (source lines
65-145).  `results.push` is modelled by appending to the passed list; the
three strategies follow which of `start` / `end` are supplied. -/
def gatherIterationResults (t : ITree) (results : List SeqInterval)
    (iteratesForward : Bool) (start e : Option SequencePlace) : List SeqInterval :=
  if t.isEmpty then results
  else
    match start, e with
    | none, none =>
      if iteratesForward then results ++ t.toList else results ++ t.toListBackward
    | none, some ep =>
      let transientInterval := mkTransient .startSentinel ep
      if iteratesForward then
        results ++ t.toList.filter (fun i => transientInterval.compareEnd i = 0)
      else
        results ++ t.toListBackward.filter (fun i => transientInterval.compareEnd i = 0)
    | some sp, none =>
      let transientInterval := mkTransient sp .endSentinel
      let compareFn := fun (k : SeqInterval) => transientInterval.compareStart k
      let continueLeftFn := fun (c : Int) => decide (c ≤ 0)
      let continueRightFn := fun (c : Int) => decide (0 ≤ c)
      if iteratesForward then
        results ++ t.walkExactMatchesForward compareFn continueLeftFn continueRightFn
      else
        results ++ t.walkExactMatchesBackward compareFn continueLeftFn continueRightFn
    | some sp, some ep =>
      let transientInterval := mkTransient sp ep
      let compareFn := fun (k : SeqInterval) => transientInterval.compare k
      let continueLeftFn := fun (c : Int) => decide (c ≤ 0)
      let continueRightFn := fun (c : Int) => decide (0 ≤ c)
      if iteratesForward then
        results ++ t.walkExactMatchesForward compareFn continueLeftFn continueRightFn
      else
        results ++ t.walkExactMatchesBackward compareFn continueLeftFn continueRightFn

/-- Whether the control flow of `gatherIterationResults` reaches the
`helpers.create` call: the probe is built exactly when the tree is
non-empty and at least one of `start` / `end` is supplied (source lines
71-93). -/
def gatherCreatesProbe (t : ITree) (start e : Option SequencePlace) : Bool :=
  !t.isEmpty && !(start.isNone && e.isNone)

/-- `OverlappingIntervalsIndex.remove` (source lines 177-179): forwards to
the tree's loud identity-based removal. -/
def removeInterval (t : ITree) (x : SeqInterval) : Except String ITree :=
  t.removeExisting x

/-- `OverlappingIntervalsIndex.add` (source lines 181-183): inserts into
the tree. -/
def addInterval (t : ITree) (x : SeqInterval) : ITree :=
  t.put x


/-- An interval spanning the whole sequence, from the start sentinel to
the end sentinel; it overlaps every non-inverted query over legitimate
places. -/
def fullInterval : SeqInterval :=
  ⟨"full", ⟨-1, .after⟩, ⟨-1, .before⟩, .persistent⟩

/-- The strict start-major, end-minor order on interval keys that
`SeqInterval.compare` encodes as an integer sign. -/
def keyLT (a b : SeqInterval) : Prop :=
  startKey a < startKey b ∨ (startKey a = startKey b ∧ endKey a < endKey b)

theorem cmpKeys_neg_iff (x y : WithTop Int) : cmpKeys x y < 0 ↔ x < y := by
  rcases lt_trichotomy x y with h | h | h
  · simp [cmpKeys, h]
  · simp [cmpKeys, h, lt_irrefl]
  · simp [cmpKeys, lt_asymm h, h]

theorem cmpKeys_pos_iff (x y : WithTop Int) : 0 < cmpKeys x y ↔ y < x := by
  rcases lt_trichotomy x y with h | h | h
  · simp [cmpKeys, h, lt_asymm h]
  · simp [cmpKeys, h, lt_irrefl]
  · simp [cmpKeys, lt_asymm h, h]

theorem cmpKeys_eq_zero_iff (x y : WithTop Int) : cmpKeys x y = 0 ↔ x = y := by
  rcases lt_trichotomy x y with h | h | h
  · simp [cmpKeys, h, ne_of_lt h]
  · simp [cmpKeys, h, lt_irrefl]
  · simp [cmpKeys, lt_asymm h, h, (ne_of_lt h).symm]

theorem compare_neg_iff (a b : SeqInterval) : a.compare b < 0 ↔ keyLT a b := by
  unfold SeqInterval.compare SeqInterval.compareStart SeqInterval.compareEnd keyLT
  rcases lt_trichotomy (startKey a) (startKey b) with h | h | h
  · have h1 : cmpKeys (startKey a) (startKey b) < 0 := (cmpKeys_neg_iff _ _).mpr h
    have h2 : cmpKeys (startKey a) (startKey b) ≠ 0 := by omega
    simp [h2, h1, h]
  · have h1 : cmpKeys (startKey a) (startKey b) = 0 := (cmpKeys_eq_zero_iff _ _).mpr h
    simp [h1, cmpKeys_neg_iff, cmpKeys_eq_zero_iff, h, lt_irrefl]
  · have h1 : 0 < cmpKeys (startKey a) (startKey b) := (cmpKeys_pos_iff _ _).mpr h
    have h2 : cmpKeys (startKey a) (startKey b) ≠ 0 := by omega
    simp [h2, lt_asymm h, h, ne_of_lt, (ne_of_lt h).symm]
    omega

theorem compare_pos_iff (a b : SeqInterval) : 0 < a.compare b ↔ keyLT b a := by
  unfold SeqInterval.compare SeqInterval.compareStart SeqInterval.compareEnd keyLT
  rcases lt_trichotomy (startKey a) (startKey b) with h | h | h
  · have h1 : cmpKeys (startKey a) (startKey b) < 0 := (cmpKeys_neg_iff _ _).mpr h
    have h2 : cmpKeys (startKey a) (startKey b) ≠ 0 := by omega
    simp [h2, lt_asymm h, h, (ne_of_lt h).symm]
    omega
  · have h1 : cmpKeys (startKey a) (startKey b) = 0 := (cmpKeys_eq_zero_iff _ _).mpr h
    simp [h1, cmpKeys_pos_iff, cmpKeys_eq_zero_iff, h, lt_irrefl]
  · have h1 : 0 < cmpKeys (startKey a) (startKey b) := (cmpKeys_pos_iff _ _).mpr h
    have h2 : cmpKeys (startKey a) (startKey b) ≠ 0 := by omega
    simp [h2, h1, h]

theorem compare_eq_zero_iff (a b : SeqInterval) :
    a.compare b = 0 ↔ (startKey a = startKey b ∧ endKey a = endKey b) := by
  unfold SeqInterval.compare SeqInterval.compareStart SeqInterval.compareEnd
  rcases eq_or_ne (startKey a) (startKey b) with h | h
  · have h1 : cmpKeys (startKey a) (startKey b) = 0 := (cmpKeys_eq_zero_iff _ _).mpr h
    simp [h1, cmpKeys_eq_zero_iff, h]
  · have h1 : cmpKeys (startKey a) (startKey b) ≠ 0 := by
      simpa [cmpKeys_eq_zero_iff] using h
    simp [h1, h]

theorem compare_nonneg_iff (a b : SeqInterval) : 0 ≤ a.compare b ↔ ¬ keyLT a b := by
  rw [← compare_neg_iff]
  omega

theorem compare_nonpos_iff (a b : SeqInterval) : a.compare b ≤ 0 ↔ ¬ keyLT b a := by
  rw [← compare_pos_iff]
  omega

theorem keyLT_trans {a b c : SeqInterval} (h1 : keyLT a b) (h2 : keyLT b c) : keyLT a c := by
  rcases h1 with h1 | ⟨h1, h1'⟩ <;> rcases h2 with h2 | ⟨h2, h2'⟩
  · exact Or.inl (lt_trans h1 h2)
  · exact Or.inl (h2 ▸ h1)
  · exact Or.inl (h1 ▸ h2)
  · exact Or.inr ⟨h1.trans h2, lt_trans h1' h2'⟩

theorem keyLT_of_lt_of_nlt {a b c : SeqInterval} (h1 : keyLT a b) (h2 : ¬ keyLT c b) :
    keyLT a c := by
  rcases lt_trichotomy (startKey a) (startKey c) with h | h | h
  · exact Or.inl h
  · rcases h1 with h1 | ⟨h1, h1'⟩
    · exact absurd (Or.inl (h ▸ h1)) h2
    · refine Or.inr ⟨h, ?_⟩
      rcases lt_trichotomy (endKey a) (endKey c) with he | he | he
      · exact he
      · exact absurd (Or.inr ⟨h1 ▸ h.symm, he ▸ h1'⟩) h2
      · exact absurd (Or.inr ⟨h1 ▸ h.symm, lt_trans he h1'⟩) h2
  · rcases h1 with h1 | ⟨h1, h1'⟩
    · exact absurd (Or.inl (lt_trans h h1)) h2
    · exact absurd (Or.inl (h1 ▸ h)) h2

theorem startKey_le_of_compare_neg {a b : SeqInterval} (h : a.compare b < 0) :
    startKey a ≤ startKey b := by
  rcases (compare_neg_iff a b).mp h with h' | ⟨h', _⟩
  · exact le_of_lt h'
  · exact le_of_eq h'

theorem startKey_le_of_compare_nonneg {a b : SeqInterval} (h : 0 ≤ a.compare b) :
    startKey b ≤ startKey a := by
  have h' := (compare_nonneg_iff a b).mp h
  by_contra hlt
  exact h' (Or.inl (lt_of_not_le hlt))

namespace ITree

theorem ordered_node_iff {l r : ITree} {k : SeqInterval} :
    (ITree.node l k r).ordered = true ↔
      (∀ x ∈ l.toList, x.compare k < 0) ∧ (∀ x ∈ r.toList, 0 ≤ x.compare k) ∧
        l.ordered = true ∧ r.ordered = true := by
  simp [ordered, List.all_eq_true, and_assoc]

theorem toListBackward_eq (t : ITree) : t.toListBackward = t.toList.reverse := by
  induction t with
  | nil => rfl
  | node l k r ihl ihr => simp [toList, toListBackward, ihl, ihr]

theorem isEmpty_iff {t : ITree} : t.isEmpty = true ↔ t = .nil := by
  cases t <;> simp [isEmpty]

theorem toList_put (t : ITree) (x : SeqInterval) :
    (t.put x).toList.Perm (x :: t.toList) := by
  induction t with
  | nil => simp [put, toList]
  | node l k r ihl ihr =>
    by_cases h : x.compare k < 0
    · simp only [put, if_pos h, toList]
      have h1 : ((l.put x).toList ++ [k] ++ r.toList).Perm
          ((x :: l.toList) ++ [k] ++ r.toList) :=
        (ihl.append_right _).append_right _
      simpa using h1
    · simp only [put, if_neg h, toList]
      have h1 : (l.toList ++ [k] ++ (r.put x).toList).Perm
          (l.toList ++ [k] ++ (x :: r.toList)) :=
        List.Perm.append_left _ ihr
      have h2 : ((l.toList ++ [k]) ++ (x :: r.toList)).Perm
          (x :: ((l.toList ++ [k]) ++ r.toList)) := List.perm_middle
      refine h1.trans ?_
      simpa using h2

theorem mem_toList_put {t : ITree} {x y : SeqInterval} :
    y ∈ (t.put x).toList ↔ y = x ∨ y ∈ t.toList := by
  rw [(toList_put t x).mem_iff]
  simp

theorem ordered_put (t : ITree) (x : SeqInterval) (h : t.ordered = true) :
    (t.put x).ordered = true := by
  induction t with
  | nil => simp [put, ordered, toList]
  | node l k r ihl ihr =>
    rcases ordered_node_iff.mp h with ⟨hl, hr, ol, or'⟩
    by_cases hc : x.compare k < 0
    · simp only [put, if_pos hc]
      refine ordered_node_iff.mpr ⟨?_, hr, ihl ol, or'⟩
      intro z hz
      rcases mem_toList_put.mp hz with rfl | hz
      · exact hc
      · exact hl z hz
    · simp only [put, if_neg hc]
      refine ordered_node_iff.mpr ⟨hl, ?_, ol, ihr or'⟩
      intro z hz
      rcases mem_toList_put.mp hz with rfl | hz
      · omega
      · exact hr z hz

theorem ordered_foldl_put (L : List SeqInterval) (t : ITree) (h : t.ordered = true) :
    (L.foldl put t).ordered = true := by
  induction L generalizing t with
  | nil => exact h
  | cons a L ih => exact ih _ (ordered_put t a h)

theorem ordered_addAll (L : List SeqInterval) : (addAll L).ordered = true :=
  ordered_foldl_put L .nil rfl

theorem toList_foldl_put (L : List SeqInterval) (t : ITree) :
    (L.foldl put t).toList.Perm (L ++ t.toList) := by
  induction L generalizing t with
  | nil => simp [List.Perm.refl]
  | cons a L ih =>
    have h1 := ih (t.put a)
    have h2 : (L ++ (t.put a).toList).Perm (L ++ (a :: t.toList)) :=
      List.Perm.append_left L (toList_put t a)
    have h3 : (L ++ (a :: t.toList)).Perm (a :: (L ++ t.toList)) := List.perm_middle
    simpa using (h1.trans h2).trans h3

theorem toList_addAll (L : List SeqInterval) : (addAll L).toList.Perm L := by
  simpa [addAll, toList] using toList_foldl_put L .nil

theorem pairwise_toList (t : ITree) (h : t.ordered = true) :
    t.toList.Pairwise (fun a b => a.compare b ≤ 0) := by
  induction t with
  | nil => simp [toList]
  | node l k r ihl ihr =>
    rcases ordered_node_iff.mp h with ⟨hl, hr, ol, or'⟩
    simp only [toList, List.append_assoc, List.singleton_append]
    rw [List.pairwise_append]
    refine ⟨ihl ol, ?_, ?_⟩
    · rw [List.pairwise_cons]
      refine ⟨?_, ihr or'⟩
      intro y hy
      exact (compare_nonpos_iff k y).mpr
        ((compare_nonneg_iff y k).mp (hr y hy))
    · intro x hx y hy
      have hxk : keyLT x k := (compare_neg_iff x k).mp (hl x hx)
      rcases List.mem_cons.mp hy with rfl | hy
      · exact le_of_lt (hl x hx)
      · have hyk : ¬ keyLT y k := (compare_nonneg_iff y k).mp (hr y hy)
        exact (compare_nonpos_iff x y).mpr
          (fun hcon => hyk (keyLT_trans hcon hxk))

end ITree

namespace ITree

theorem endKey_le_maxEnd (t : ITree) {i : SeqInterval} (hi : i ∈ t.toList) :
    ((endKey i : WithTop Int) : WithBot (WithTop Int)) ≤ t.maxEnd := by
  induction t with
  | nil => simp [toList] at hi
  | node l k r ihl ihr =>
    simp only [toList, List.mem_append, List.mem_singleton] at hi
    simp only [maxEnd]
    rcases hi with (hi | rfl) | hi
    · exact le_sup_of_le_left (le_sup_of_le_left (ihl hi))
    · exact le_sup_of_le_left le_sup_right
    · exact le_sup_of_le_right (ihr hi)

theorem overlaps_false_of_end_lt {probe i : SeqInterval}
    (h : endKey i < startKey probe) : overlaps probe i = false := by
  have h' : ¬ (startKey probe ≤ endKey i) := not_le_of_lt h
  simp [overlaps, h']

theorem overlaps_false_of_start_gt {probe i : SeqInterval}
    (h : endKey probe < startKey i) : overlaps probe i = false := by
  have h' : ¬ (startKey i ≤ endKey probe) := not_le_of_lt h
  simp [overlaps, h']

theorem matchTree_eq_filter (t : ITree) (probe : SeqInterval) (h : t.ordered = true) :
    t.matchTree probe = t.toList.filter (fun i => overlaps probe i) := by
  induction t with
  | nil => rfl
  | node l k r ihl ihr =>
    rcases ordered_node_iff.mp h with ⟨hl, hr, ol, or'⟩
    simp only [matchTree]
    by_cases hp : (ITree.node l k r).maxEnd
        < ((startKey probe : WithTop Int) : WithBot (WithTop Int))
    · rw [if_pos hp]
      symm
      rw [List.filter_eq_nil_iff]
      intro i hi
      have hle := endKey_le_maxEnd (ITree.node l k r) hi
      have hlt : ((endKey i : WithTop Int) : WithBot (WithTop Int))
          < ((startKey probe : WithTop Int) : WithBot (WithTop Int)) := lt_of_le_of_lt hle hp
      simp [overlaps_false_of_end_lt (WithBot.coe_lt_coe.mp hlt)]
    · rw [if_neg hp, ihl ol, ihr or']
      simp only [toList, List.filter_append, List.filter_singleton]
      by_cases hq : endKey probe < startKey k
      · rw [if_pos hq]
        have hempty : r.toList.filter (fun i => overlaps probe i) = [] := by
          rw [List.filter_eq_nil_iff]
          intro y hy
          have h1 : startKey k ≤ startKey y := startKey_le_of_compare_nonneg (hr y hy)
          simp [overlaps_false_of_start_gt (lt_of_lt_of_le hq h1)]
        rw [hempty]
        simp [Bool.cond_eq_ite]
      · rw [if_neg hq]
        simp [Bool.cond_eq_ite]

theorem matchTree_subset (t : ITree) (probe : SeqInterval) {x : SeqInterval}
    (hx : x ∈ t.matchTree probe) : x ∈ t.toList := by
  induction t with
  | nil => simp [matchTree] at hx
  | node l k r ihl ihr =>
    simp only [matchTree] at hx
    by_cases hp : (ITree.node l k r).maxEnd
        < ((startKey probe : WithTop Int) : WithBot (WithTop Int))
    · rw [if_pos hp] at hx
      simp at hx
    · rw [if_neg hp] at hx
      simp only [toList, List.mem_append, List.mem_singleton]
      simp only [List.mem_append] at hx
      rcases hx with (hx | hx) | hx
      · exact Or.inl (Or.inl (ihl hx))
      · by_cases ho : overlaps probe k = true
        · rw [if_pos ho] at hx
          simp at hx
          exact Or.inl (Or.inr hx)
        · rw [if_neg (by simpa using ho)] at hx
          simp at hx
      · by_cases hq : endKey probe < startKey k
        · rw [if_pos hq] at hx
          simp at hx
        · rw [if_neg hq] at hx
          exact Or.inr (ihr hx)

end ITree

namespace ITree

theorem walkBackward_eq_reverse (t : ITree) (f : SeqInterval → Int) (cl cr : Int → Bool) :
    t.walkExactMatchesBackward f cl cr = (t.walkExactMatchesForward f cl cr).reverse := by
  induction t with
  | nil => rfl
  | node l k r ihl ihr =>
    simp only [walkExactMatchesForward, walkExactMatchesBackward, ihl, ihr]
    cases hcl : cl (f k) <;> cases hcr : cr (f k) <;> by_cases h0 : f k = 0 <;> simp [h0]

theorem walkForward_subset (t : ITree) (f : SeqInterval → Int) (cl cr : Int → Bool)
    {x : SeqInterval} (hx : x ∈ t.walkExactMatchesForward f cl cr) : x ∈ t.toList := by
  induction t with
  | nil => simp [walkExactMatchesForward] at hx
  | node l k r ihl ihr =>
    simp only [walkExactMatchesForward, List.mem_append] at hx
    simp only [toList, List.mem_append, List.mem_singleton]
    rcases hx with (hx | hx) | hx
    · split at hx
      · exact Or.inl (Or.inl (ihl hx))
      · simp at hx
    · split at hx
      · simp only [List.mem_singleton] at hx
        exact Or.inl (Or.inr hx)
      · simp at hx
    · split at hx
      · exact Or.inr (ihr hx)
      · simp at hx

theorem walkForward_eq_filter (cmpFn : SeqInterval → Int)
    (hA : ∀ x k : SeqInterval, x.compare k < 0 → 0 < cmpFn k → cmpFn x ≠ 0)
    (hB : ∀ x k : SeqInterval, 0 ≤ x.compare k → cmpFn k < 0 → cmpFn x ≠ 0)
    (t : ITree) (h : t.ordered = true) :
    t.walkExactMatchesForward cmpFn (fun c => decide (c ≤ 0)) (fun c => decide (0 ≤ c))
      = t.toList.filter (fun z => decide (cmpFn z = 0)) := by
  induction t with
  | nil => rfl
  | node l k r ihl ihr =>
    rcases ordered_node_iff.mp h with ⟨hl, hr, ol, or'⟩
    simp only [walkExactMatchesForward, toList, List.filter_append, List.filter_singleton]
    rcases lt_trichotomy (cmpFn k) 0 with hc | hc | hc
    · have e3 : ¬ (cmpFn k = 0) := by omega
      have hBe : r.toList.filter (fun z => decide (cmpFn z = 0)) = [] := by
        rw [List.filter_eq_nil_iff]
        intro y hy
        simpa using hB y k (hr y hy) hc
      have e1 : cmpFn k ≤ 0 := le_of_lt hc
      have e2 : ¬ (0 ≤ cmpFn k) := by omega
      simp [e1, e2, e3, ihl ol, hBe]
    · have e1 : cmpFn k ≤ 0 := le_of_eq hc
      have e2 : 0 ≤ cmpFn k := le_of_eq hc.symm
      simp [e1, e2, hc, ihl ol, ihr or']
    · have e3 : ¬ (cmpFn k = 0) := by omega
      have hAe : l.toList.filter (fun z => decide (cmpFn z = 0)) = [] := by
        rw [List.filter_eq_nil_iff]
        intro y hy
        simpa using hA y k (hl y hy) hc
      have e1 : ¬ (cmpFn k ≤ 0) := by omega
      have e2 : 0 ≤ cmpFn k := le_of_lt hc
      simp [e1, e2, e3, ihr or', hAe]

theorem probe_compare_hA (probe : SeqInterval) :
    ∀ x k : SeqInterval, x.compare k < 0 → 0 < probe.compare k → probe.compare x ≠ 0 := by
  intro x k h1 h2 h0
  have hxk := (compare_neg_iff x k).mp h1
  have hkp := (compare_pos_iff probe k).mp h2
  have hxp := keyLT_trans hxk hkp
  rcases (compare_eq_zero_iff probe x).mp h0 with ⟨hs, he⟩
  rcases hxp with hlt | ⟨heq, hlt⟩
  · rw [hs] at hlt
    exact lt_irrefl _ hlt
  · rw [hs] at heq
    rw [he] at hlt
    exact lt_irrefl _ hlt

theorem probe_compare_hB (probe : SeqInterval) :
    ∀ x k : SeqInterval, 0 ≤ x.compare k → probe.compare k < 0 → probe.compare x ≠ 0 := by
  intro x k h1 h2 h0
  have hxk := (compare_nonneg_iff x k).mp h1
  have hpk := (compare_neg_iff probe k).mp h2
  rcases (compare_eq_zero_iff probe x).mp h0 with ⟨hs, he⟩
  refine hxk ?_
  rcases hpk with hlt | ⟨heq, hlt⟩
  · exact Or.inl (hs ▸ hlt)
  · exact Or.inr ⟨hs ▸ heq, he ▸ hlt⟩

theorem probe_compareStart_hA (probe : SeqInterval) :
    ∀ x k : SeqInterval, x.compare k < 0 → 0 < probe.compareStart k →
      probe.compareStart x ≠ 0 := by
  intro x k h1 h2 h0
  have hsk : startKey k < startKey probe := by
    simpa [SeqInterval.compareStart, cmpKeys_pos_iff] using h2
  have hxk : startKey x ≤ startKey k := startKey_le_of_compare_neg h1
  have hs : startKey probe = startKey x := by
    simpa [SeqInterval.compareStart, cmpKeys_eq_zero_iff] using h0
  rw [hs] at hsk
  exact absurd (lt_of_lt_of_le hsk hxk) (lt_irrefl _)

theorem probe_compareStart_hB (probe : SeqInterval) :
    ∀ x k : SeqInterval, 0 ≤ x.compare k → probe.compareStart k < 0 →
      probe.compareStart x ≠ 0 := by
  intro x k h1 h2 h0
  have hsk : startKey probe < startKey k := by
    simpa [SeqInterval.compareStart, cmpKeys_neg_iff] using h2
  have hxk : startKey k ≤ startKey x := startKey_le_of_compare_nonneg h1
  have hs : startKey probe = startKey x := by
    simpa [SeqInterval.compareStart, cmpKeys_eq_zero_iff] using h0
  rw [hs] at hsk
  exact absurd (lt_of_lt_of_le hsk hxk) (lt_irrefl _)

end ITree

theorem filter_reverse_eq (p : SeqInterval → Bool) (l : List SeqInterval) :
    l.reverse.filter p = (l.filter p).reverse := by
  induction l with
  | nil => rfl
  | cons a l ih => cases hp : p a <;> simp [List.filter_append, hp, ih]

theorem neg_one_le_posKey {p : InteriorPlace} (h : validPlace p = true) :
    ((-1 : Int) : WithTop Int) ≤ posKey p := by
  obtain ⟨pos, side⟩ := p
  have hp : -1 ≤ pos := by simpa [validPlace] using h
  rcases le_or_lt 0 pos with h0 | h0
  · have hc : ¬ (pos = -1 ∧ side = Side.before) := by
      rintro ⟨rfl, -⟩
      omega
    simp only [posKey]
    rw [if_neg hc, WithTop.coe_le_coe]
    split <;> omega
  · have hpos : pos = -1 := by omega
    subst hpos
    cases side <;> decide

theorem overlaps_fullInterval {probe : SeqInterval}
    (he : validPlace probe.end_ = true) :
    overlaps probe fullInterval = true := by
  have h1 : startKey fullInterval = ((-1 : Int) : WithTop Int) := rfl
  have h2 : endKey fullInterval = ⊤ := rfl
  have h3 : startKey fullInterval ≤ endKey probe := by
    rw [h1]
    exact neg_one_le_posKey he
  have h4 : startKey probe ≤ endKey fullInterval := by
    rw [h2]
    exact le_top
  simp [overlaps, h3, h4]

theorem findOverlapping_eq_filter (t : ITree) (s e : SequencePlace)
    (ho : t.ordered = true)
    (h : invertedSearchInterval (normalizeSequencePlace s) (normalizeSequencePlace e) = false) :
    findOverlappingIntervals t s e
      = t.toList.filter (fun i => overlaps (mkTransient s e) i) := by
  simp only [findOverlappingIntervals]
  rw [h]
  cases t with
  | nil => rfl
  | node l k r =>
    rw [if_neg (by simp [ITree.isEmpty])]
    exact ITree.matchTree_eq_filter _ _ ho

/-- C1: for every stored interval multiset (in any insertion order) and
every query `[A,B]` whose normalized range is not inverted,
`findOverlappingIntervals` returns exactly the stored intervals `I` with
`I.start ≤ B` and `I.end ≥ A` under the position order. -/
theorem C1_findOverlapping_exact (L : List SeqInterval) (s e : SequencePlace)
    (h : invertedSearchInterval (normalizeSequencePlace s) (normalizeSequencePlace e) = false) :
    (findOverlappingIntervals (ITree.addAll L) s e).Perm
      (L.filter (fun i =>
        decide (startKey i ≤ posKey (normalizeSequencePlace e)) &&
        decide (posKey (normalizeSequencePlace s) ≤ endKey i))) := by
  rw [findOverlapping_eq_filter (ITree.addAll L) s e (ITree.ordered_addAll L) h]
  exact (ITree.toList_addAll L).filter (fun i => overlaps (mkTransient s e) i)

theorem C1_witness :
    invertedSearchInterval (normalizeSequencePlace (.offset 3))
        (normalizeSequencePlace (.offset 4)) = false ∧
    (findOverlappingIntervals
        (ITree.addAll [⟨"a", ⟨1, .before⟩, ⟨3, .before⟩, .persistent⟩,
          ⟨"b", ⟨4, .before⟩, ⟨6, .before⟩, .persistent⟩,
          ⟨"c", ⟨2, .before⟩, ⟨5, .before⟩, .persistent⟩]) (.offset 3) (.offset 4)).Perm
      ([⟨"a", ⟨1, .before⟩, ⟨3, .before⟩, .persistent⟩,
        ⟨"b", ⟨4, .before⟩, ⟨6, .before⟩, .persistent⟩,
        ⟨"c", ⟨2, .before⟩, ⟨5, .before⟩, .persistent⟩].filter (fun i =>
          decide (startKey i ≤ posKey (normalizeSequencePlace (.offset 4))) &&
          decide (posKey (normalizeSequencePlace (.offset 3)) ≤ endKey i))) :=
  ⟨by decide, C1_findOverlapping_exact _ (.offset 3) (.offset 4) (by decide)⟩

/-- C2: for every query over legitimate places, `findOverlappingIntervals`
returns `[]` without consulting the tree (the result is `[]` for every
tree state whatsoever) exactly when the normalized range is inverted per
the three-clause test of source lines 151-158. -/
theorem C2_inverted_iff (s e : SequencePlace)
    (hs : validPlace (normalizeSequencePlace s) = true)
    (he : validPlace (normalizeSequencePlace e) = true) :
    invertedSearchInterval (normalizeSequencePlace s) (normalizeSequencePlace e) = true ↔
      ∀ t : ITree, findOverlappingIntervals t s e = [] := by
  constructor
  · intro h t
    unfold findOverlappingIntervals
    simp [h]
  · intro hall
    by_contra hne
    have h : invertedSearchInterval (normalizeSequencePlace s)
        (normalizeSequencePlace e) = false := by
      simpa using hne
    have ht0 := hall (ITree.node .nil fullInterval .nil)
    rw [findOverlapping_eq_filter _ s e (by decide) h] at ht0
    have hov : overlaps (mkTransient s e) fullInterval = true :=
      overlaps_fullInterval he
    simp [ITree.toList, hov] at ht0

theorem C2_witness :
    validPlace (normalizeSequencePlace .endSentinel) = true ∧
    validPlace (normalizeSequencePlace (.offset 2)) = true ∧
    invertedSearchInterval (normalizeSequencePlace .endSentinel)
        (normalizeSequencePlace (.offset 2)) = true ∧
    findOverlappingIntervals (ITree.node .nil fullInterval .nil) .endSentinel (.offset 2) = [] :=
  ⟨by decide, by decide, by decide,
    ((C2_inverted_iff .endSentinel (.offset 2) (by decide) (by decide)).mp (by decide))
      (ITree.node .nil fullInterval .nil)⟩

/-- C3 counterexample: the claim reads `(-1, Before)` as the logical-start
sentinel and asserts that a query starting there with a resolved end does
not take the inverted-range early return.  On the code, `(-1, Before)` is
the *end*-of-sequence sentinel (source comment, line 153): the query
`start = (-1, Before)`, `end = 0` is classified inverted and returns `[]`
even on a non-empty tree whose sole stored interval the tree search would
have matched. -/
theorem C3_counterexample :
    invertedSearchInterval (normalizeSequencePlace (.interior ⟨-1, .before⟩))
        (normalizeSequencePlace (.offset 0)) = true ∧
    (ITree.node .nil fullInterval .nil).isEmpty = false ∧
    findOverlappingIntervals (ITree.node .nil fullInterval .nil)
        (.interior ⟨-1, .before⟩) (.offset 0) = [] ∧
    (ITree.node .nil fullInterval .nil).matchTree
        (mkTransient (.interior ⟨-1, .before⟩) (.offset 0)) = [fullInterval] := by
  refine ⟨by decide, rfl, by decide, by decide⟩

/-- C3 (amended): `(-1, After)` is the logical-start sentinel; for every
query whose start normalizes to it and whose end normalizes to a resolved
offset `≥ 0`, `findOverlappingIntervals` on a non-empty tree does not take
the inverted-range early return: it builds the probe and searches the
tree. -/
theorem C3_amended (s e : SequencePlace) (t : ITree)
    (hs : normalizeSequencePlace s = ⟨-1, Side.after⟩)
    (he : 0 ≤ (normalizeSequencePlace e).pos)
    (ht : t.isEmpty = false) :
    invertedSearchInterval (normalizeSequencePlace s) (normalizeSequencePlace e) = false ∧
    findOverlappingIntervals t s e = t.matchTree (mkTransient s e) := by
  have h1 : (normalizeSequencePlace e).pos ≠ -1 := by omega
  have hinv : invertedSearchInterval (normalizeSequencePlace s)
      (normalizeSequencePlace e) = false := by
    rw [hs]
    simp [invertedSearchInterval, h1]
  refine ⟨hinv, ?_⟩
  simp only [findOverlappingIntervals]
  rw [hinv, ht]
  rfl

theorem C3_amended_witness :
    normalizeSequencePlace .startSentinel = ⟨-1, Side.after⟩ ∧
    (0 : Int) ≤ (normalizeSequencePlace (.offset 5)).pos ∧
    (ITree.node .nil fullInterval .nil).isEmpty = false ∧
    (invertedSearchInterval (normalizeSequencePlace .startSentinel)
        (normalizeSequencePlace (.offset 5)) = false ∧
      findOverlappingIntervals (ITree.node .nil fullInterval .nil) .startSentinel (.offset 5) =
        (ITree.node .nil fullInterval .nil).matchTree
          (mkTransient .startSentinel (.offset 5))) :=
  ⟨rfl, by decide, rfl,
    C3_amended .startSentinel (.offset 5) (ITree.node .nil fullInterval .nil) rfl
      (by decide) rfl⟩

/-- C4: with neither `start` nor `end` supplied, `gatherIterationResults`
appends every stored interval exactly once — in ascending `compare` order
when iterating forward, in descending order when iterating backward. -/
theorem C4_gather_no_filters (t : ITree) (results : List SeqInterval)
    (h : t.ordered = true) :
    gatherIterationResults t results true none none = results ++ t.toList ∧
    gatherIterationResults t results false none none = results ++ t.toList.reverse ∧
    t.toList.Pairwise (fun a b => a.compare b ≤ 0) := by
  refine ⟨?_, ?_, ITree.pairwise_toList t h⟩
  · cases t with
    | nil => simp [gatherIterationResults, ITree.isEmpty, ITree.toList]
    | node l k r => rfl
  · cases t with
    | nil => simp [gatherIterationResults, ITree.isEmpty, ITree.toList]
    | node l k r =>
      simp only [gatherIterationResults, ITree.isEmpty, ITree.toListBackward_eq]
      rfl

theorem C4_witness :
    (ITree.addAll [⟨"b", ⟨4, .before⟩, ⟨6, .before⟩, .persistent⟩,
      ⟨"a", ⟨1, .before⟩, ⟨3, .before⟩, .persistent⟩]).ordered = true ∧
    (gatherIterationResults
        (ITree.addAll [⟨"b", ⟨4, .before⟩, ⟨6, .before⟩, .persistent⟩,
          ⟨"a", ⟨1, .before⟩, ⟨3, .before⟩, .persistent⟩]) [] true none none =
        [] ++ (ITree.addAll [⟨"b", ⟨4, .before⟩, ⟨6, .before⟩, .persistent⟩,
          ⟨"a", ⟨1, .before⟩, ⟨3, .before⟩, .persistent⟩]).toList ∧
      gatherIterationResults
        (ITree.addAll [⟨"b", ⟨4, .before⟩, ⟨6, .before⟩, .persistent⟩,
          ⟨"a", ⟨1, .before⟩, ⟨3, .before⟩, .persistent⟩]) [] false none none =
        [] ++ (ITree.addAll [⟨"b", ⟨4, .before⟩, ⟨6, .before⟩, .persistent⟩,
          ⟨"a", ⟨1, .before⟩, ⟨3, .before⟩, .persistent⟩]).toList.reverse ∧
      (ITree.addAll [⟨"b", ⟨4, .before⟩, ⟨6, .before⟩, .persistent⟩,
        ⟨"a", ⟨1, .before⟩, ⟨3, .before⟩, .persistent⟩]).toList.Pairwise
        (fun a b => a.compare b ≤ 0)) :=
  ⟨by decide, C4_gather_no_filters _ [] (by decide)⟩

/-- C5: with only `end` supplied, `gatherIterationResults` traverses the
whole tree in the requested direction and appends exactly the stored
intervals whose end compares equal to the probe's end under `compareEnd`,
in that order. -/
theorem C5_gather_end_only (t : ITree) (results : List SeqInterval) (fwd : Bool)
    (E : SequencePlace) (h : t.isEmpty = false) :
    gatherIterationResults t results fwd none (some E) =
      results ++ (if fwd then
          t.toList.filter (fun i => (mkTransient .startSentinel E).compareEnd i = 0)
        else
          (t.toList.filter (fun i => (mkTransient .startSentinel E).compareEnd i = 0)).reverse) := by
  cases t with
  | nil => simp [ITree.isEmpty] at h
  | node l k r =>
    cases fwd
    · simp only [gatherIterationResults, ITree.isEmpty, ITree.toListBackward_eq,
        filter_reverse_eq, if_neg]
      rfl
    · rfl

theorem C5_witness :
    (ITree.node .nil fullInterval .nil).isEmpty = false ∧
    gatherIterationResults (ITree.node .nil fullInterval .nil) [] true none
        (some .endSentinel) =
      [] ++ (if true then
          (ITree.node .nil fullInterval .nil).toList.filter
            (fun i => (mkTransient .startSentinel .endSentinel).compareEnd i = 0)
        else
          ((ITree.node .nil fullInterval .nil).toList.filter
            (fun i => (mkTransient .startSentinel .endSentinel).compareEnd i = 0)).reverse) :=
  ⟨rfl, C5_gather_end_only (ITree.node .nil fullInterval .nil) [] true .endSentinel rfl⟩

/-- C6: with `start` supplied (and `end` optional), `gatherIterationResults`
performs the pruned `walkExactMatchesForward`/`Backward` using the probe's
`compareStart` (end absent) or full `compare` (both present) with
`continueLeft = cmp ≤ 0` and `continueRight = cmp ≥ 0`, appending exactly
the visited nodes' intervals — which are exactly the stored intervals
comparing equal to the probe, in the requested order. -/
theorem C6_gather_start_pruned (t : ITree) (results : List SeqInterval) (fwd : Bool)
    (sp : SequencePlace) (eOpt : Option SequencePlace)
    (ho : t.ordered = true) (h : t.isEmpty = false) :
    gatherIterationResults t results fwd (some sp) eOpt =
      results ++ (if fwd then
          t.walkExactMatchesForward
            (match eOpt with
              | none => fun z => (mkTransient sp .endSentinel).compareStart z
              | some ep => fun z => (mkTransient sp ep).compare z)
            (fun c => decide (c ≤ 0)) (fun c => decide (0 ≤ c))
        else
          t.walkExactMatchesBackward
            (match eOpt with
              | none => fun z => (mkTransient sp .endSentinel).compareStart z
              | some ep => fun z => (mkTransient sp ep).compare z)
            (fun c => decide (c ≤ 0)) (fun c => decide (0 ≤ c))) ∧
    gatherIterationResults t results fwd (some sp) eOpt =
      results ++ (if fwd then
          t.toList.filter (fun z => decide ((match eOpt with
              | none => fun w => (mkTransient sp .endSentinel).compareStart w
              | some ep => fun w => (mkTransient sp ep).compare w) z = 0))
        else
          (t.toList.filter (fun z => decide ((match eOpt with
              | none => fun w => (mkTransient sp .endSentinel).compareStart w
              | some ep => fun w => (mkTransient sp ep).compare w) z = 0))).reverse) := by
  cases t with
  | nil => simp [ITree.isEmpty] at h
  | node l k r =>
    rcases eOpt with _ | ep
    · have hw := ITree.walkForward_eq_filter
        (fun z => (mkTransient sp .endSentinel).compareStart z)
        (fun x y h1 h2 => ITree.probe_compareStart_hA (mkTransient sp .endSentinel) x y h1 h2)
        (fun x y h1 h2 => ITree.probe_compareStart_hB (mkTransient sp .endSentinel) x y h1 h2)
        (ITree.node l k r) ho
      cases fwd
      · refine ⟨rfl, ?_⟩
        have hb := ITree.walkBackward_eq_reverse (ITree.node l k r)
          (fun z => (mkTransient sp .endSentinel).compareStart z)
          (fun c => decide (c ≤ 0)) (fun c => decide (0 ≤ c))
        show results ++ (ITree.node l k r).walkExactMatchesBackward _ _ _ = _
        rw [hb, hw]
        rfl
      · refine ⟨rfl, ?_⟩
        show results ++ (ITree.node l k r).walkExactMatchesForward _ _ _ = _
        rw [hw]
        rfl
    · have hw := ITree.walkForward_eq_filter
        (fun z => (mkTransient sp ep).compare z)
        (fun x y h1 h2 => ITree.probe_compare_hA (mkTransient sp ep) x y h1 h2)
        (fun x y h1 h2 => ITree.probe_compare_hB (mkTransient sp ep) x y h1 h2)
        (ITree.node l k r) ho
      cases fwd
      · refine ⟨rfl, ?_⟩
        have hb := ITree.walkBackward_eq_reverse (ITree.node l k r)
          (fun z => (mkTransient sp ep).compare z)
          (fun c => decide (c ≤ 0)) (fun c => decide (0 ≤ c))
        show results ++ (ITree.node l k r).walkExactMatchesBackward _ _ _ = _
        rw [hb, hw]
        rfl
      · refine ⟨rfl, ?_⟩
        show results ++ (ITree.node l k r).walkExactMatchesForward _ _ _ = _
        rw [hw]
        rfl

theorem C6_witness :
    (ITree.node .nil fullInterval .nil).ordered = true ∧
    (ITree.node .nil fullInterval .nil).isEmpty = false ∧
    gatherIterationResults (ITree.node .nil fullInterval .nil) [] true
        (some (.offset 2)) none =
      [] ++ (if true then
          (ITree.node .nil fullInterval .nil).walkExactMatchesForward
            (match (none : Option SequencePlace) with
              | none => fun z => (mkTransient (.offset 2) .endSentinel).compareStart z
              | some ep => fun z => (mkTransient (.offset 2) ep).compare z)
            (fun c => decide (c ≤ 0)) (fun c => decide (0 ≤ c))
        else
          (ITree.node .nil fullInterval .nil).walkExactMatchesBackward
            (match (none : Option SequencePlace) with
              | none => fun z => (mkTransient (.offset 2) .endSentinel).compareStart z
              | some ep => fun z => (mkTransient (.offset 2) ep).compare z)
            (fun c => decide (c ≤ 0)) (fun c => decide (0 ≤ c))) :=
  ⟨by decide, rfl,
    (C6_gather_start_pruned (ITree.node .nil fullInterval .nil) [] true (.offset 2) none
      (by decide) rfl).1⟩

/-- C7: the unfiltered forward gather is the reversal of the unfiltered
backward gather — the same interval set, ascending versus descending. -/
theorem C7_gather_forward_reverse (t : ITree) (results : List SeqInterval) :
    gatherIterationResults t results true none none =
      results ++ (gatherIterationResults t [] false none none).reverse := by
  cases t with
  | nil => simp [gatherIterationResults, ITree.isEmpty]
  | node l k r =>
    simp only [gatherIterationResults, ITree.isEmpty, ITree.toListBackward_eq]
    simp

/-- C8: queries are pure tree reads: every interval returned by
`findOverlappingIntervals` or appended by `gatherIterationResults` is a
stored tree node's key (or was already in the caller's results list), and
the `Transient` probe — never inserted — never appears among the results. -/
theorem C8_queries_frame (t : ITree) (s e : SequencePlace) (results : List SeqInterval)
    (fwd : Bool) (sOpt eOpt : Option SequencePlace)
    (hp : mkTransient s e ∉ t.toList) :
    (∀ x ∈ findOverlappingIntervals t s e, x ∈ t.toList) ∧
    mkTransient s e ∉ findOverlappingIntervals t s e ∧
    (∀ x ∈ gatherIterationResults t results fwd sOpt eOpt, x ∈ results ∨ x ∈ t.toList) := by
  have hfind : ∀ x ∈ findOverlappingIntervals t s e, x ∈ t.toList := by
    intro x hx
    simp only [findOverlappingIntervals] at hx
    split at hx
    · simp at hx
    · exact ITree.matchTree_subset t _ hx
  refine ⟨hfind, fun hmem => hp (hfind _ hmem), ?_⟩
  intro x hx
  cases t with
  | nil =>
    simp only [gatherIterationResults, ITree.isEmpty, if_pos] at hx
    exact Or.inl hx
  | node l k r =>
    rcases sOpt with _ | spv <;> rcases eOpt with _ | epv
    · simp only [gatherIterationResults, ITree.isEmpty] at hx
      cases fwd
      · rw [if_neg (by simp)] at hx
        rcases List.mem_append.mp hx with hx | hx
        · exact Or.inl hx
        · rw [ITree.toListBackward_eq, List.mem_reverse] at hx
          exact Or.inr hx
      · rw [if_pos rfl] at hx
        rcases List.mem_append.mp hx with hx | hx
        · exact Or.inl hx
        · exact Or.inr hx
    · simp only [gatherIterationResults, ITree.isEmpty] at hx
      cases fwd
      · rw [if_neg (by simp)] at hx
        rcases List.mem_append.mp hx with hx | hx
        · exact Or.inl hx
        · rw [ITree.toListBackward_eq] at hx
          exact Or.inr (List.mem_reverse.mp (List.mem_of_mem_filter hx))
      · rw [if_pos rfl] at hx
        rcases List.mem_append.mp hx with hx | hx
        · exact Or.inl hx
        · exact Or.inr (List.mem_of_mem_filter hx)
    · simp only [gatherIterationResults, ITree.isEmpty] at hx
      cases fwd
      · rw [if_neg (by simp)] at hx
        rcases List.mem_append.mp hx with hx | hx
        · exact Or.inl hx
        · rw [ITree.walkBackward_eq_reverse, List.mem_reverse] at hx
          exact Or.inr (ITree.walkForward_subset _ _ _ _ hx)
      · rw [if_pos rfl] at hx
        rcases List.mem_append.mp hx with hx | hx
        · exact Or.inl hx
        · exact Or.inr (ITree.walkForward_subset _ _ _ _ hx)
    · simp only [gatherIterationResults, ITree.isEmpty] at hx
      cases fwd
      · rw [if_neg (by simp)] at hx
        rcases List.mem_append.mp hx with hx | hx
        · exact Or.inl hx
        · rw [ITree.walkBackward_eq_reverse, List.mem_reverse] at hx
          exact Or.inr (ITree.walkForward_subset _ _ _ _ hx)
      · rw [if_pos rfl] at hx
        rcases List.mem_append.mp hx with hx | hx
        · exact Or.inl hx
        · exact Or.inr (ITree.walkForward_subset _ _ _ _ hx)

theorem C8_witness :
    mkTransient (.offset 0) (.offset 9) ∉ (ITree.node .nil fullInterval .nil).toList ∧
    ((∀ x ∈ findOverlappingIntervals (ITree.node .nil fullInterval .nil)
        (.offset 0) (.offset 9), x ∈ (ITree.node .nil fullInterval .nil).toList) ∧
      mkTransient (.offset 0) (.offset 9) ∉
        findOverlappingIntervals (ITree.node .nil fullInterval .nil) (.offset 0) (.offset 9) ∧
      (∀ x ∈ gatherIterationResults (ITree.node .nil fullInterval .nil) [] true none none,
        x ∈ [] ∨ x ∈ (ITree.node .nil fullInterval .nil).toList)) :=
  ⟨by decide,
    C8_queries_frame (ITree.node .nil fullInterval .nil) (.offset 0) (.offset 9) [] true
      none none (by decide)⟩

/-- C9: removing an interval that was never added (or is already removed)
fails loudly with a distinct error rather than silently doing nothing. -/
theorem C9_remove_absent_errors (t : ITree) (x : SeqInterval)
    (h : t.containsI x = false) :
    removeInterval t x = .error "removeExisting: interval not present" := by
  simp [removeInterval, ITree.removeExisting, h]

theorem C9_witness :
    ITree.containsI (ITree.node .nil fullInterval .nil)
      (mkTransient (.offset 0) (.offset 1)) = false ∧
    removeInterval (ITree.node .nil fullInterval .nil) (mkTransient (.offset 0) (.offset 1)) =
      .error "removeExisting: interval not present" :=
  ⟨by decide,
    C9_remove_absent_errors (ITree.node .nil fullInterval .nil)
      (mkTransient (.offset 0) (.offset 1)) (by decide)⟩

/-- C10: on an empty tree, `gatherIterationResults` returns immediately
for every combination of `start`, `end` and direction: the results list is
unchanged and the transient probe is never constructed. -/
theorem C10_gather_empty (t : ITree) (results : List SeqInterval) (fwd : Bool)
    (sOpt eOpt : Option SequencePlace) (h : t.isEmpty = true) :
    gatherIterationResults t results fwd sOpt eOpt = results ∧
    gatherCreatesProbe t sOpt eOpt = false := by
  constructor
  · simp [gatherIterationResults, h]
  · simp [gatherCreatesProbe, h]

theorem C10_witness :
    ITree.nil.isEmpty = true ∧
    (gatherIterationResults .nil [fullInterval] false (some (.offset 1)) (some (.offset 2)) =
        [fullInterval] ∧
      gatherCreatesProbe .nil (some (.offset 1)) (some (.offset 2)) = false) :=
  ⟨rfl, C10_gather_empty .nil [fullInterval] false (some (.offset 1)) (some (.offset 2)) rfl⟩
